import Mathlib

set_option autoImplicit false
set_option maxRecDepth 8000

/-!
Shallow embedding of rcut (src/main.rs): the selector parser
(field_parser), the per-line evaluator (CutJob::process_reader), the
broken-pipe muffler (muffle_epipe) and the multi-source driver in main.
Strings are modelled as lists of characters; Rust isize/usize arithmetic
is modelled on Int with explicit wrapping where the casts occur.
-/

/-- Largest value of a 64-bit Rust isize. -/
def isizeMax : Int := 9223372036854775807

/-- Smallest value of a 64-bit Rust isize. -/
def isizeMin : Int := -9223372036854775808

/-- Wrap an unbounded integer into 64-bit signed range, as Rust
release-mode isize arithmetic and the `as isize` cast do. -/
def toIsize (i : Int) : Int :=
  (i + 9223372036854775808) % 18446744073709551616 - 9223372036854775808

/-- Interpretation of an isize value as usize, as the `as usize` cast does. -/
def usizeOf (i : Int) : Nat :=
  (i % 18446744073709551616).toNat

/-- Model of the `s.starts_with('-')` test in field_parser. -/
def startsWithDash : List Char → Bool
  | [] => false
  | c :: _ => c == '-'

/-- Value of one decimal digit character; none when not an ASCII digit. -/
def digitVal (c : Char) : Option Nat :=
  if c.isDigit then some (c.toNat - 48) else none

/-- Accumulating digit loop of Rust integer parsing. -/
def decDigitsAux : List Char → Nat → Option Nat
  | [], acc => some acc
  | c :: rest, acc =>
    match digitVal c with
    | none => none
    | some d => decDigitsAux rest (acc * 10 + d)

/-- Parse a nonempty all-digit string to its value (Rust digit loop;
empty input is an error). -/
def decDigits : List Char → Option Nat
  | [] => none
  | c :: rest => decDigitsAux (c :: rest) 0

/-- Magnitude parse for an unsigned body, with the positive isize bound
check Rust's parse::<isize> performs. -/
def parsePosDigits (l : List Char) : Option Int :=
  match decDigits l with
  | none => none
  | some n => if (n : Int) ≤ isizeMax then some (n : Int) else none

/-- Magnitude parse for the body after a leading minus sign, with the
negative isize bound check Rust's parse::<isize> performs. -/
def parseNegDigits (l : List Char) : Option Int :=
  match decDigits l with
  | none => none
  | some n => if (n : Int) ≤ 9223372036854775808 then some (-(n : Int)) else none

/-- Model of Rust str::parse::<isize>: optional single sign, then one or
more decimal digits, with 64-bit bounds. -/
def parseIsizeChars : List Char → Option Int
  | [] => none
  | c :: rest =>
    if c == '-' then parseNegDigits rest
    else if c == '+' then parsePosDigits rest
    else parsePosDigits (c :: rest)

/-- FieldRange from main.rs: a closed interval of signed endpoints,
stored verbatim. -/
structure FieldRange where
  start : Int
  stop : Int
deriving DecidableEq, Repr

/-- FieldSelector from main.rs: ordered list of ranges. -/
structure FieldSelector where
  fields : List FieldRange
deriving DecidableEq, Repr

/-- Errors the selector parser can produce: the format_err("empty field
range") value and the ParseIntError from isize parsing (tagged with the
offending substring, which anyhow surfaces). -/
inductive ParseErr
  | emptyRange
  | invalidInteger (token : List Char)
deriving DecidableEq, Repr

/-- Split a character list at every character satisfying p, keeping
empty chunks: Rust str::split with a char pattern. -/
def splitOnPred (p : Char → Bool) : List Char → List (List Char)
  | [] => [[]]
  | c :: rest =>
    if p c then [] :: splitOnPred p rest
    else
      match splitOnPred p rest with
      | [] => [[c]]
      | x :: xs => (c :: x) :: xs

/-- Rust str::split(',') on a character list. -/
def splitOnComma (l : List Char) : List (List Char) :=
  splitOnPred (fun x => x == ',') l

/-- Rust str::splitn(2, '-'): split at the first '-' only, if any. -/
def splitn2Dash : List Char → List (List Char)
  | [] => [[]]
  | c :: rest =>
    if c == '-' then [[], rest]
    else
      match splitn2Dash rest with
      | [] => [[c]]
      | x :: xs => (c :: x) :: xs

/-- Per-token body of field_parser's map: split the token at the first
'-', parse the pieces, defaulting stop to start when there is no '-'. -/
def parseToken (t : List Char) : Except ParseErr FieldRange :=
  match splitn2Dash t with
  | [] => Except.error ParseErr.emptyRange
  | a :: rest =>
    match parseIsizeChars a with
    | none => Except.error (ParseErr.invalidInteger a)
    | some start =>
      match rest with
      | [] => Except.ok (FieldRange.mk start start)
      | b :: _ =>
        match parseIsizeChars b with
        | none => Except.error (ParseErr.invalidInteger b)
        | some stop => Except.ok (FieldRange.mk start stop)

/-- Short-circuiting collect::<Result<Vec<FieldRange>>> over the tokens. -/
def collectTokens : List (List Char) → Except ParseErr (List FieldRange)
  | [] => Except.ok []
  | t :: ts =>
    match parseToken t with
    | Except.error e => Except.error e
    | Except.ok r =>
      match collectTokens ts with
      | Except.error e => Except.error e
      | Except.ok rs => Except.ok (r :: rs)

/-- field_parser from main.rs: an expression starting with '-' is parsed
whole as one signed integer; otherwise it is split on commas and each
token parsed as a range. -/
def fieldParser (s : List Char) : Except ParseErr FieldSelector :=
  if startsWithDash s then
    match parseIsizeChars s with
    | some n => Except.ok (FieldSelector.mk [FieldRange.mk n n])
    | none => Except.error (ParseErr.invalidInteger s)
  else
    match collectTokens (splitOnComma s) with
    | Except.error e => Except.error e
    | Except.ok rs => Except.ok (FieldSelector.mk rs)

/-- Rust slice join(",") used by parse_command_line on positional args. -/
def joinComma : List (List Char) → List Char
  | [] => []
  | [x] => x
  | x :: y :: rest => x ++ ',' :: joinComma (y :: rest)

/-- Selector expression chosen by parse_command_line: the -f flag value
when present, else the positional arguments joined with commas. -/
def selectorExpr (fieldsFlag : Option (List Char)) (args : List (List Char)) : List Char :=
  match fieldsFlag with
  | some f => f
  | none => joinComma args

/-- Delimiter from main.rs: whitespace runs or a literal string. -/
inductive Delimiter
  | whitespace
  | string (sep : List Char)
deriving DecidableEq, Repr

/-- CutJob from main.rs. -/
structure CutJob where
  input_delim : Delimiter
  selector : FieldSelector
  output_separator : List Char

/-- Rust str::split_whitespace: split on whitespace characters and drop
the empty chunks. -/
def splitWs (l : List Char) : List (List Char) :=
  (splitOnPred (fun c => c.isWhitespace) l).filter (fun t => !t.isEmpty)

/-- Fuel-driven body of literal-string splitting; fuel is the input
length, which bounds the recursion for a nonempty separator. -/
def splitOnListAux (sep : List Char) : Nat → List Char → List (List Char)
  | _, [] => [[]]
  | 0, l => [l]
  | fuel + 1, c :: rest =>
    if (c :: rest).take sep.length == sep then
      [] :: splitOnListAux sep fuel ((c :: rest).drop sep.length)
    else
      match splitOnListAux sep fuel rest with
      | [] => [[c]]
      | x :: xs => (c :: x) :: xs

/-- Rust str::split with a literal string pattern: leftmost,
non-overlapping occurrences, empty chunks kept; an empty pattern matches
at every character boundary. -/
def splitOnList (sep : List Char) (l : List Char) : List (List Char) :=
  if sep.isEmpty then [[]] ++ l.map (fun c => [c]) ++ [[]]
  else splitOnListAux sep l.length l

/-- Line splitting per the Delimiter, as in process_reader. -/
def lineFields : Delimiter → List Char → List (List Char)
  | Delimiter.whitespace, l => splitWs l
  | Delimiter.string s, l => splitOnList s l

/-- Rust range iteration start..=stop: ascending when start ≤ stop,
empty otherwise. -/
def rangeList (start stop : Int) : List Int :=
  if start ≤ stop then (List.range (stop + 1 - start).toNat).map (fun k : Nat => start + (k : Int)) else []

/-- Negative-index resolution from process_reader: if idx < 0 the code
computes line_fields.len() as isize - -idx + 1 in isize arithmetic. -/
def resolveIdx (len : Nat) (idx : Int) : Int :=
  if idx < 0 then toIsize (toIsize (toIsize (len : Int) - toIsize (-idx)) + 1) else idx

/-- Field lookup from process_reader: line_fields.get((idx - 1) as usize). -/
def fieldLookup (fields : List (List Char)) (idx : Int) : Option (List Char) :=
  fields.get? (usizeOf (toIsize (resolveIdx fields.length idx - 1)))

/-- Emission loop of process_reader: the needs_sep flag starts false and
is set after the first emitted field; a missing lookup is skipped. -/
def emitLoop (fields : List (List Char)) (sep : List Char) : List Int → Bool → List Char
  | [], _ => []
  | idx :: rest, needsSep =>
    match fieldLookup fields idx with
    | none => emitLoop fields sep rest needsSep
    | some v => (if needsSep then sep else []) ++ v ++ emitLoop fields sep rest true

/-- One line of process_reader: split the line, then run the nested
range loops (linearized, with needs_sep threaded through). -/
def evalLine (job : CutJob) (line : List Char) : List Char :=
  let fields := lineFields job.input_delim line
  emitLoop fields job.output_separator
    (List.flatten (job.selector.fields.map (fun r => rangeList r.start r.stop))) false

/-- process_reader over a stream already split into lines: each line's
output followed by a newline. -/
def processReader (job : CutJob) (lines : List (List Char)) : List Char :=
  List.flatten (lines.map (fun l => evalLine job l ++ [Char.ofNat 10]))

/-- Modelled from the spec: "joined by the output separator" (the
reference join the evaluator's output is compared against). -/
def joinSep (sep : List Char) : List (List Char) → List Char
  | [] => []
  | x :: xs => x ++ List.flatten (xs.map (fun y => sep ++ y))

/-- Decimal numeral of a natural number, most significant digit first. -/
def digitChar (n : Nat) : Char := Char.ofNat (48 + n)

/-- Decimal numeral of a natural number. -/
def natNumeral (n : Nat) : List Char :=
  if n < 10 then [digitChar n]
  else natNumeral (n / 10) ++ [digitChar (n % 10)]
termination_by n
decreasing_by
  simp_wf
  omega

/-- Kinds of io::Error relevant to muffle_epipe. -/
inductive IoKind
  | brokenPipe
  | notFound
  | permissionDenied
  | otherKind
deriving DecidableEq, Repr

/-- One cause in an anyhow error chain: an io::Error with its kind and
message, or a non-I/O error. -/
inductive ErrCause
  | io (kind : IoKind) (msg : List Char)
  | generic (msg : List Char)
deriving DecidableEq, Repr

/-- Loop of muffle_epipe: scan the cause chain for an io::Error of the
BrokenPipe kind. -/
def hasBrokenPipe : List ErrCause → Bool
  | [] => false
  | ErrCause.io IoKind.brokenPipe _ :: _ => true
  | _ :: rest => hasBrokenPipe rest

/-- muffle_epipe from main.rs: return Ok(()) when some cause in the
chain is a BrokenPipe io::Error, else propagate the error unchanged. -/
def muffleEpipe (err : List ErrCause) : Except (List ErrCause) Unit :=
  if hasBrokenPipe err then Except.ok () else Except.error err

/-- Result of attempting to open one named source. -/
inductive OpenResult
  | ok (lines : List (List Char))
  | failed (name : List Char)
deriving DecidableEq, Repr

/-- Observable outcome of the file loop in main: the bytes written, the
number of sources whose open was attempted, and the reported failure. -/
structure RunOutcome where
  output : List Char
  attempted : Nat
  failure : Option (List Char)
deriving DecidableEq, Repr

/-- File loop of main: the iterator chain ending in
collect::<Result<Vec<()>>> opens and processes sources in order and
stops at the first open failure. -/
def mainRun (job : CutJob) : List OpenResult → RunOutcome
  | [] => RunOutcome.mk [] 0 none
  | OpenResult.failed name :: _ => RunOutcome.mk [] 1 (some name)
  | OpenResult.ok lines :: rest =>
    let r := mainRun job rest
    RunOutcome.mk (processReader job lines ++ r.output) (r.attempted + 1) r.failure

deriving instance DecidableEq for Except

/-! Arithmetic facts about the isize/usize casts. -/

theorem toIsize_eq_self (x : Int) (h1 : isizeMin ≤ x) (h2 : x ≤ isizeMax) : toIsize x = x := by
  unfold toIsize
  unfold isizeMin at h1
  unfold isizeMax at h2
  omega

theorem usizeOf_toIsize (x : Int) : usizeOf (toIsize x) = usizeOf x := by
  unfold usizeOf toIsize
  omega

theorem usizeOf_of_nonneg (x : Int) (h1 : 0 ≤ x) (h2 : x < 18446744073709551616) : usizeOf x = x.toNat := by
  unfold usizeOf
  omega

theorem resolveIdx_of_nonneg (len : Nat) (idx : Int) (h : 0 ≤ idx) : resolveIdx len idx = idx := by
  unfold resolveIdx
  rw [if_neg (by omega)]

theorem resolveIdx_of_neg (len : Nat) (idx : Int) (h1 : isizeMin < idx) (h2 : idx < 0)
    (hlen : (len : Int) ≤ isizeMax) : resolveIdx len idx = (len : Int) + idx + 1 := by
  unfold resolveIdx
  rw [if_pos h2]
  unfold isizeMin at h1
  unfold isizeMax at hlen
  unfold toIsize
  omega

theorem resolveIdx_of_min (len : Nat) (hlen : (len : Int) ≤ isizeMax) :
    resolveIdx len isizeMin = (len : Int) - 9223372036854775807 := by
  unfold isizeMax at hlen
  unfold resolveIdx isizeMin
  rw [if_pos (by omega)]
  unfold toIsize
  omega

theorem resolveIdx_le_len_of_neg (len : Nat) (idx : Int) (h1 : isizeMin ≤ idx) (h2 : idx < 0)
    (hlen : (len : Int) ≤ isizeMax) : resolveIdx len idx ≤ (len : Int) := by
  rcases eq_or_lt_of_le h1 with hmin | hgt
  · rw [← hmin, resolveIdx_of_min len hlen]
    omega
  · rw [resolveIdx_of_neg len idx hgt h2 hlen]
    omega

theorem usizeOf_unreachable (r : Int) (h1 : isizeMin < r) (h2 : r ≤ 0) :
    9223372036854775808 ≤ usizeOf (toIsize (r - 1)) := by
  rw [usizeOf_toIsize]
  unfold isizeMin at h1
  unfold usizeOf
  omega

theorem fieldLookup_none_of_out (fields : List (List Char)) (idx : Int)
    (hlen : (fields.length : Int) ≤ isizeMax)
    (hlo : isizeMin ≤ idx) (hhi : idx ≤ isizeMax)
    (hout : resolveIdx fields.length idx ≤ 0 ∨ (fields.length : Int) < resolveIdx fields.length idx) :
    fieldLookup fields idx = none := by
  unfold fieldLookup
  rw [List.get?_eq_none]
  rcases le_or_lt 0 idx with hpos | hneg
  · rw [resolveIdx_of_nonneg fields.length idx hpos] at hout ⊢
    rw [usizeOf_toIsize]
    unfold isizeMax at hlen hhi
    unfold usizeOf
    omega
  · have hle := resolveIdx_le_len_of_neg fields.length idx hlo hneg hlen
    have hge : isizeMin < resolveIdx fields.length idx := by
      rcases eq_or_lt_of_le hlo with hmin | hgt
      · rw [← hmin, resolveIdx_of_min fields.length hlen]
        unfold isizeMin
        omega
      · rw [resolveIdx_of_neg fields.length idx hgt hneg hlen]
        unfold isizeMin at *
        omega
    have hr0 : resolveIdx fields.length idx ≤ 0 := by omega
    have := usizeOf_unreachable (resolveIdx fields.length idx) hge hr0
    unfold isizeMax at hlen
    omega

theorem fieldLookup_of_pos (fields : List (List Char)) (k : Nat) (hk : k < fields.length)
    (hlen : (fields.length : Int) ≤ isizeMax) :
    fieldLookup fields ((1 : Int) + (k : Int)) = fields.get? k := by
  unfold fieldLookup
  rw [resolveIdx_of_nonneg fields.length _ (by omega)]
  have h1 : (1 : Int) + (k : Int) - 1 = (k : Int) := by omega
  rw [h1]
  rw [toIsize_eq_self (k : Int) (by unfold isizeMin; omega) (by unfold isizeMax at *; omega)]
  rw [usizeOf_of_nonneg (k : Int) (by omega) (by unfold isizeMax at hlen; omega)]
  have h2 : ((k : Int)).toNat = k := by omega
  rw [h2]

/-! Structure of the emission loop. -/

theorem emitLoop_skip (fields : List (List Char)) (sep : List Char) (idx : Int)
    (rest : List Int) (b : Bool) (h : fieldLookup fields idx = none) :
    emitLoop fields sep (idx :: rest) b = emitLoop fields sep rest b := by
  rw [emitLoop.eq_2, h]

theorem emitLoop_emit (fields : List (List Char)) (sep : List Char) (idx : Int)
    (rest : List Int) (b : Bool) (v : List Char) (h : fieldLookup fields idx = some v) :
    emitLoop fields sep (idx :: rest) b =
      (if b then sep else []) ++ v ++ emitLoop fields sep rest true := by
  rw [emitLoop.eq_2, h]

theorem emitLoop_true_eq (fields : List (List Char)) (sep : List Char) :
    ∀ idxs : List Int, emitLoop fields sep idxs true =
      List.flatten (((idxs.filterMap (fieldLookup fields)).map (fun v => sep ++ v)))
  | [] => rfl
  | idx :: rest => by
    cases h : fieldLookup fields idx with
    | none =>
      rw [emitLoop_skip fields sep idx rest true h, List.filterMap_cons_none h]
      exact emitLoop_true_eq fields sep rest
    | some v =>
      rw [emitLoop_emit fields sep idx rest true v h, List.filterMap_cons_some h]
      rw [emitLoop_true_eq fields sep rest]
      simp

theorem emitLoop_false_eq (fields : List (List Char)) (sep : List Char) :
    ∀ idxs : List Int, emitLoop fields sep idxs false =
      joinSep sep (idxs.filterMap (fieldLookup fields))
  | [] => rfl
  | idx :: rest => by
    cases h : fieldLookup fields idx with
    | none =>
      rw [emitLoop_skip fields sep idx rest false h, List.filterMap_cons_none h]
      exact emitLoop_false_eq fields sep rest
    | some v =>
      rw [emitLoop_emit fields sep idx rest false v h, List.filterMap_cons_some h]
      rw [emitLoop_true_eq fields sep rest]
      unfold joinSep
      simp

/-! Structure of the selector parser. -/

theorem splitn2Dash_ne_nil : ∀ l : List Char, splitn2Dash l ≠ []
  | [] => by simp [splitn2Dash]
  | c :: rest => by
    unfold splitn2Dash
    split
    · simp
    · cases h : splitn2Dash rest <;> simp

theorem parseToken_ne_emptyRange (t : List Char) :
    parseToken t ≠ Except.error ParseErr.emptyRange := by
  have hne := splitn2Dash_ne_nil t
  unfold parseToken
  split
  · rename_i heq
    exact absurd heq hne
  · split
    · simp
    · split
      · simp
      · split
        · simp
        · simp

theorem collectTokens_ne_emptyRange :
    ∀ ts : List (List Char), collectTokens ts ≠ Except.error ParseErr.emptyRange
  | [] => by simp [collectTokens]
  | t :: ts => by
    unfold collectTokens
    cases hp : parseToken t with
    | error e =>
      intro h
      rw [Except.error.injEq] at h
      rw [h] at hp
      exact parseToken_ne_emptyRange t hp
    | ok r =>
      cases hc : collectTokens ts with
      | error e =>
        intro h
        rw [Except.error.injEq] at h
        rw [h] at hc
        exact collectTokens_ne_emptyRange ts hc
      | ok rs => simp

theorem fieldParser_ne_emptyRange (s : List Char) :
    fieldParser s ≠ Except.error ParseErr.emptyRange := by
  unfold fieldParser
  split
  · cases parseIsizeChars s with
    | none => simp
    | some n => simp
  · cases hc : collectTokens (splitOnComma s) with
    | error e =>
      intro h
      rw [Except.error.injEq] at h
      rw [h] at hc
      exact collectTokens_ne_emptyRange _ hc
    | ok rs => simp

theorem splitOnPred_no_split (p : Char → Bool) :
    ∀ l : List Char, (∀ c ∈ l, p c = false) → splitOnPred p l = [l]
  | [], _ => rfl
  | c :: rest, h => by
    unfold splitOnPred
    rw [if_neg (by rw [h c (by simp)]; simp)]
    rw [splitOnPred_no_split p rest (fun x hx => h x (by simp [hx]))]

theorem splitn2Dash_append (sa sb : List Char) (h : ('-') ∉ sa) :
    splitn2Dash (sa ++ '-' :: sb) = [sa, sb] := by
  induction sa with
  | nil => rfl
  | cons c rest ih =>
    have hc : c ≠ '-' := by
      intro he
      exact h (by simp [he])
    rw [List.cons_append]
    unfold splitn2Dash
    rw [if_neg (by simp [hc])]
    rw [ih (fun hm => h (by simp [hm]))]

theorem splitOnComma_single (s : List Char) (h : (',') ∉ s) : splitOnComma s = [s] := by
  unfold splitOnComma
  apply splitOnPred_no_split
  intro c hc
  simp only [beq_eq_false_iff_ne, ne_eq]
  intro he
  exact h (he ▸ hc)

theorem fieldParser_of_not_dash (s : List Char) (h : startsWithDash s = false) :
    fieldParser s = match collectTokens (splitOnComma s) with
      | Except.error e => Except.error e
      | Except.ok rs => Except.ok (FieldSelector.mk rs) := by
  unfold fieldParser
  split
  · rename_i hT
    rw [h] at hT
    cases hT
  · rfl

theorem fieldParser_span (sa sb : List Char) (a b : Int)
    (ha : parseIsizeChars sa = some a) (hb : parseIsizeChars sb = some b)
    (hd : ('-') ∉ sa) (hc1 : (',') ∉ sa) (hc2 : (',') ∉ sb) :
    fieldParser (sa ++ '-' :: sb) = Except.ok (FieldSelector.mk [FieldRange.mk a b]) := by
  obtain ⟨c, rest, rfl⟩ : ∃ c rest, sa = c :: rest := by
    cases sa with
    | nil => exact absurd ha (by simp [parseIsizeChars])
    | cons c rest => exact ⟨c, rest, rfl⟩
  have hcdash : c ≠ '-' := fun he => hd (by simp [he])
  have hsw : startsWithDash ((c :: rest) ++ '-' :: sb) = false := by
    rw [List.cons_append]
    unfold startsWithDash
    simp [hcdash]
  have hcomma : (',') ∉ (c :: rest) ++ '-' :: sb := by
    intro hm
    rcases List.mem_append.mp hm with h1 | h1
    · exact hc1 h1
    · rcases List.mem_cons.mp h1 with h2 | h2
      · exact absurd h2 (by decide)
      · exact hc2 h2
  have htok : parseToken ((c :: rest) ++ '-' :: sb) = Except.ok (FieldRange.mk a b) := by
    unfold parseToken
    rw [splitn2Dash_append (c :: rest) sb hd]
    simp [ha, hb]
  rw [fieldParser_of_not_dash _ hsw, splitOnComma_single _ hcomma]
  rw [List.cons_append] at htok
  simp [collectTokens, htok]

/-! Decimal numerals round-trip through the digit parser. -/

theorem digitChar_isDigit (n : Nat) (h : n < 10) : (digitChar n).isDigit = true := by
  interval_cases n <;> decide

theorem digitVal_digitChar (n : Nat) (h : n < 10) : digitVal (digitChar n) = some n := by
  interval_cases n <;> decide

theorem natNumeral_ne_nil (n : Nat) : natNumeral n ≠ [] := by
  unfold natNumeral
  split
  · simp
  · simp

theorem natNumeral_all_digits : ∀ n : Nat, ∀ c ∈ natNumeral n, c.isDigit = true := by
  intro n
  induction n using Nat.strong_induction_on with
  | _ n ih =>
    intro c hc
    rw [natNumeral] at hc
    split at hc
    · rename_i h10
      rw [List.mem_singleton] at hc
      rw [hc]
      exact digitChar_isDigit n h10
    · rename_i h10
      rcases List.mem_append.mp hc with h1 | h1
      · exact ih (n / 10) (Nat.div_lt_self (by omega) (by omega)) c h1
      · rw [List.mem_singleton] at h1
        rw [h1]
        exact digitChar_isDigit (n % 10) (Nat.mod_lt n (by omega))

theorem decDigitsAux_append (l1 l2 : List Char) : ∀ acc : Nat,
    decDigitsAux (l1 ++ l2) acc =
      match decDigitsAux l1 acc with
      | none => none
      | some m => decDigitsAux l2 m := by
  induction l1 with
  | nil => intro acc; rfl
  | cons c rest ih =>
    intro acc
    rw [List.cons_append, decDigitsAux.eq_2]
    cases hdv : digitVal c with
    | none =>
      have h2 : decDigitsAux (c :: rest) acc = none := by
        rw [decDigitsAux.eq_2, hdv]
      rw [h2]
    | some d =>
      have h2 : decDigitsAux (c :: rest) acc = decDigitsAux rest (acc * 10 + d) := by
        rw [decDigitsAux.eq_2, hdv]
      rw [h2]
      exact ih (acc * 10 + d)

theorem decDigitsAux_natNumeral : ∀ n acc : Nat,
    decDigitsAux (natNumeral n) acc = some (acc * 10 ^ (natNumeral n).length + n) := by
  intro n
  induction n using Nat.strong_induction_on with
  | _ n ih =>
    intro acc
    rw [natNumeral]
    split
    · rename_i h10
      rw [decDigitsAux.eq_2, digitVal_digitChar n h10]
      show some ((acc * 10 + n : Nat)) = some (acc * 10 ^ ([digitChar n] : List Char).length + n)
      simp
    · rename_i h10
      rw [decDigitsAux_append]
      rw [ih (n / 10) (Nat.div_lt_self (by omega) (by omega)) acc]
      show decDigitsAux [digitChar (n % 10)] (acc * 10 ^ (natNumeral (n / 10)).length + n / 10) =
        some (acc * 10 ^ (natNumeral (n / 10) ++ [digitChar (n % 10)]).length + n)
      rw [decDigitsAux.eq_2, digitVal_digitChar (n % 10) (Nat.mod_lt n (by omega))]
      show some ((acc * 10 ^ (natNumeral (n / 10)).length + n / 10) * 10 + n % 10) =
        some (acc * 10 ^ (natNumeral (n / 10) ++ [digitChar (n % 10)]).length + n)
      congr 1
      rw [List.length_append]
      simp only [List.length_singleton]
      rw [pow_succ]
      have hdm : n / 10 * 10 + n % 10 = n := by omega
      calc (acc * 10 ^ (natNumeral (n / 10)).length + n / 10) * 10 + n % 10
      _ = acc * (10 ^ (natNumeral (n / 10)).length * 10) + (n / 10 * 10 + n % 10) := by ring
      _ = acc * (10 ^ (natNumeral (n / 10)).length * 10) + n := by rw [hdm]

theorem decDigits_natNumeral (n : Nat) : decDigits (natNumeral n) = some n := by
  cases hl : natNumeral n with
  | nil => exact absurd hl (natNumeral_ne_nil n)
  | cons c rest =>
    show decDigitsAux (c :: rest) 0 = some n
    rw [← hl, decDigitsAux_natNumeral n 0]
    simp

theorem natNumeral_head_digit (n : Nat) : ∃ c rest, natNumeral n = c :: rest ∧ c.isDigit = true := by
  cases hl : natNumeral n with
  | nil => exact absurd hl (natNumeral_ne_nil n)
  | cons c rest =>
    refine ⟨c, rest, rfl, ?_⟩
    exact natNumeral_all_digits n c (by rw [hl]; simp)

theorem parsePosDigits_natNumeral (n : Nat) (h : (n : Int) ≤ isizeMax) :
    parsePosDigits (natNumeral n) = some (n : Int) := by
  unfold parsePosDigits
  rw [decDigits_natNumeral n]
  show (if (n : Int) ≤ isizeMax then some (n : Int) else none) = some (n : Int)
  rw [if_pos h]

theorem parseIsizeChars_natNumeral (n : Nat) (h : (n : Int) ≤ isizeMax) :
    parseIsizeChars (natNumeral n) = some (n : Int) := by
  obtain ⟨c, rest, hl, hdig⟩ := natNumeral_head_digit n
  have hnd : c ≠ '-' := by
    intro he
    rw [he] at hdig
    exact absurd hdig (by decide)
  have hnp : c ≠ '+' := by
    intro he
    rw [he] at hdig
    exact absurd hdig (by decide)
  rw [hl]
  show (if (c == '-') = true then parseNegDigits rest
    else if (c == '+') = true then parsePosDigits rest else parsePosDigits (c :: rest)) = some (n : Int)
  rw [if_neg (by simp [hnd]), if_neg (by simp [hnp])]
  rw [← hl]
  exact parsePosDigits_natNumeral n h

theorem natNumeral_no_dash (n : Nat) : ('-') ∉ natNumeral n := by
  intro hm
  have := natNumeral_all_digits n '-' hm
  exact absurd this (by decide)

theorem natNumeral_no_comma (n : Nat) : (',') ∉ natNumeral n := by
  intro hm
  have := natNumeral_all_digits n ',' hm
  exact absurd this (by decide)

/-! Full-range evaluation reproduces the fields. -/

theorem filterMap_comp_map {α β γ : Type} (f : β → Option γ) (g : α → β) :
    ∀ l : List α, (l.map g).filterMap f = l.filterMap (fun x => f (g x)) := by
  intro l
  induction l with
  | nil => rfl
  | cons x xs ih =>
    rw [List.map_cons]
    cases h : f (g x) with
    | none => simp [List.filterMap_cons, h, ih]
    | some v => simp [List.filterMap_cons, h, ih]

theorem filterMap_range_get {α : Type} : ∀ (l : List α) (f : Nat → Option α),
    (∀ k, k < l.length → f k = l.get? k) → (List.range l.length).filterMap f = l := by
  intro l
  induction l with
  | nil => intro f _; rfl
  | cons a as ih =>
    intro f h
    have hlen : (a :: as).length = as.length + 1 := rfl
    rw [hlen, List.range_succ_eq_map]
    rw [List.filterMap_cons_some (show f 0 = some a from h 0 (by simp))]
    rw [filterMap_comp_map f Nat.succ]
    rw [ih (fun k => f (Nat.succ k)) (fun k hk => h (k + 1) (by omega))]

theorem rangeList_empty (start stop : Int) (h : stop < start) : rangeList start stop = [] := by
  unfold rangeList
  rw [if_neg (by omega)]

theorem rangeList_one_len (N : Nat) :
    rangeList 1 (N : Int) = (List.range N).map (fun k : Nat => 1 + (k : Int)) := by
  rcases Nat.eq_zero_or_pos N with h0 | hpos
  · rw [h0]
    rfl
  · unfold rangeList
    rw [if_pos (by omega : (1 : Int) ≤ (N : Int))]
    have h1 : ((N : Int) + 1 - 1).toNat = N := by omega
    rw [h1]

theorem full_range_filterMap (fields : List (List Char)) (hlen : (fields.length : Int) ≤ isizeMax) :
    (rangeList 1 (fields.length : Int)).filterMap (fieldLookup fields) = fields := by
  rw [rangeList_one_len fields.length]
  have hcomp := filterMap_comp_map (fieldLookup fields) (fun k : Nat => 1 + (k : Int)) (List.range fields.length)
  rw [hcomp]
  exact filterMap_range_get fields (fun k => fieldLookup fields (1 + (k : Int)))
    (fun k hk => fieldLookup_of_pos fields k hk hlen)

theorem evalLine_full_range (line sep : List Char)
    (hlen : ((splitWs line).length : Int) ≤ isizeMax) :
    evalLine (CutJob.mk Delimiter.whitespace
      (FieldSelector.mk [FieldRange.mk 1 ((splitWs line).length : Int)]) sep) line =
      joinSep sep (splitWs line) := by
  show emitLoop (lineFields Delimiter.whitespace line) sep
    (List.flatten (([FieldRange.mk 1 ((splitWs line).length : Int)]).map
      (fun r => rangeList r.start r.stop))) false = joinSep sep (splitWs line)
  have hm : List.flatten (([FieldRange.mk 1 ((splitWs line).length : Int)]).map
      (fun r => rangeList r.start r.stop)) = rangeList 1 ((splitWs line).length : Int) := by
    simp
  rw [hm]
  have hlf : lineFields Delimiter.whitespace line = splitWs line := rfl
  rw [hlf, emitLoop_false_eq]
  rw [full_range_filterMap (splitWs line) hlen]

/-! The multi-source loop in main stops at the first open failure. -/

theorem mainRun_all_ok (job : CutJob) :
    ∀ good : List (List (List Char)),
      mainRun job (good.map OpenResult.ok) =
        RunOutcome.mk (List.flatten (good.map (processReader job))) good.length none
  | [] => rfl
  | g :: gs => by
    rw [List.map_cons]
    show RunOutcome.mk (processReader job g ++ (mainRun job (gs.map OpenResult.ok)).output)
      ((mainRun job (gs.map OpenResult.ok)).attempted + 1)
      (mainRun job (gs.map OpenResult.ok)).failure =
      RunOutcome.mk (List.flatten ((g :: gs).map (processReader job))) (g :: gs).length none
    rw [mainRun_all_ok job gs]
    simp

theorem mainRun_stops (job : CutJob) (name : List Char) (rest : List OpenResult) :
    ∀ good : List (List (List Char)),
      mainRun job (good.map OpenResult.ok ++ OpenResult.failed name :: rest) =
        RunOutcome.mk (List.flatten (good.map (processReader job))) (good.length + 1) (some name)
  | [] => by
    rw [List.map_nil, List.nil_append]
    rfl
  | g :: gs => by
    rw [List.map_cons, List.cons_append]
    show RunOutcome.mk
      (processReader job g ++ (mainRun job (gs.map OpenResult.ok ++ OpenResult.failed name :: rest)).output)
      ((mainRun job (gs.map OpenResult.ok ++ OpenResult.failed name :: rest)).attempted + 1)
      (mainRun job (gs.map OpenResult.ok ++ OpenResult.failed name :: rest)).failure =
      RunOutcome.mk (List.flatten ((g :: gs).map (processReader job))) ((g :: gs).length + 1) (some name)
    rw [mainRun_stops job name rest gs]
    simp

/-! Broken-pipe scanning. -/

theorem hasBrokenPipe_cons (c : ErrCause) (rest : List ErrCause)
    (h : ∀ m, c ≠ ErrCause.io IoKind.brokenPipe m) :
    hasBrokenPipe (c :: rest) = hasBrokenPipe rest := by
  cases c with
  | generic m => rfl
  | io k m =>
    cases k with
    | brokenPipe => exact absurd rfl (h m)
    | notFound => rfl
    | permissionDenied => rfl
    | otherKind => rfl

theorem hasBrokenPipe_iff : ∀ chain : List ErrCause,
    hasBrokenPipe chain = true ↔ ∃ m, ErrCause.io IoKind.brokenPipe m ∈ chain := by
  intro chain
  induction chain with
  | nil => simp [hasBrokenPipe]
  | cons c rest ih =>
    by_cases hbp : ∃ m, c = ErrCause.io IoKind.brokenPipe m
    · obtain ⟨m, rfl⟩ := hbp
      constructor
      · intro _
        exact ⟨m, List.mem_cons_self _ _⟩
      · intro _
        rfl
    · push_neg at hbp
      rw [hasBrokenPipe_cons c rest (fun m => hbp m), ih]
      constructor
      · rintro ⟨m, hm⟩
        exact ⟨m, List.mem_cons_of_mem c hm⟩
      · rintro ⟨m, hm⟩
        rcases List.mem_cons.mp hm with he | hm2
        · exact absurd he.symm (hbp m)
        · exact ⟨m, hm2⟩

/-- C1 counterexample: the selector parsed from "5-2" is the verbatim
range {5,2}, but evaluating it on the 6-field line "a b c d e f" emits
nothing at all (Rust start..=stop is empty when start > stop), not the
fields 5,4,3,2 ("e d c b") the claim predicts. -/
theorem c1_counterexample :
    fieldParser (("5-2").data) = Except.ok (FieldSelector.mk [FieldRange.mk 5 2]) ∧
    evalLine (CutJob.mk Delimiter.whitespace (FieldSelector.mk [FieldRange.mk 5 2]) ((" ").data))
      (("a b c d e f").data) = [] ∧
    evalLine (CutJob.mk Delimiter.whitespace (FieldSelector.mk [FieldRange.mk 5 2]) ((" ").data))
      (("a b c d e f").data) ≠ (("e d c b").data) :=
  ⟨by decide, by decide, by decide⟩

/-- C1 amended: for every FieldRange {start, stop} with start > stop the
evaluator's enumeration start..=stop is empty, so such a range emits no
fields; concretely the selector parsed from "5-2" applied to a 6-field
line produces an empty output line. -/
theorem c1_amended :
    (∀ start stop : Int, stop < start → rangeList start stop = []) ∧
    fieldParser (("5-2").data) = Except.ok (FieldSelector.mk [FieldRange.mk 5 2]) ∧
    evalLine (CutJob.mk Delimiter.whitespace (FieldSelector.mk [FieldRange.mk 5 2]) ((" ").data))
      (("a b c d e f").data) = [] :=
  ⟨rangeList_empty, by decide, by decide⟩

/-- C1 witness: the amended theorem evaluated at the descending range
{3,1}. -/
theorem c1_amended_witness : (1 : Int) < 3 ∧ rangeList 3 1 = [] :=
  ⟨by decide, c1_amended.1 3 1 (by decide)⟩

/-- C2 counterexample: with three named sources where the second fails to
open, the file loop of main processes only the first source (its output
"x" is written), attempts two opens, and stops: the third source is never
attempted, contradicting "attempts to open all sources and processes
every source that opened successfully". -/
theorem c2_counterexample :
    mainRun (CutJob.mk Delimiter.whitespace (FieldSelector.mk [FieldRange.mk 1 1]) ((" ").data))
      [OpenResult.ok [("x y").data], OpenResult.failed (("gone").data),
       OpenResult.ok [("z w").data]] =
      RunOutcome.mk (("x\n").data) 2 (some (("gone").data)) ∧
    (2 : Nat) ≠ 3 :=
  ⟨by decide, by decide⟩

/-- C2 amended: the iterator chain in main short-circuits at the first
open failure: every source before the first failing one is opened and
fully processed (its output written), the first failure is reported, and
no later source is attempted; when all sources open, all are processed
and no failure is reported. -/
theorem c2_amended (job : CutJob) (good : List (List (List Char))) (name : List Char)
    (rest : List OpenResult) :
    mainRun job (good.map OpenResult.ok ++ OpenResult.failed name :: rest) =
      RunOutcome.mk (List.flatten (good.map (processReader job))) (good.length + 1) (some name) ∧
    mainRun job (good.map OpenResult.ok) =
      RunOutcome.mk (List.flatten (good.map (processReader job))) good.length none :=
  ⟨mainRun_stops job name rest good, mainRun_all_ok job good⟩

/-- C3 counterexample: "-3--1" begins with a dash, so field_parser parses
the whole expression as one signed integer, which fails; it does not
yield the range {-3,-1} the claim predicts. -/
theorem c3_counterexample :
    fieldParser (("-3--1").data) = Except.error (ParseErr.invalidInteger (("-3--1").data)) ∧
    fieldParser (("-3--1").data) ≠ Except.ok (FieldSelector.mk [FieldRange.mk (-3) (-1)]) :=
  ⟨by decide, by decide⟩

/-- C3 amended: for a token that does not begin with a dash, parse("A-B")
splits at the first dash only and yields the single verbatim range {A,B}
(so "2-1" gives {2,1} and "3--1" gives {3,-1}); an expression beginning
with a dash is instead parsed whole as one signed integer, so "-3--1" is
rejected. -/
theorem c3_amended :
    (∀ (sa sb : List Char) (a b : Int),
      parseIsizeChars sa = some a → parseIsizeChars sb = some b →
      ('-') ∉ sa → (',') ∉ sa → (',') ∉ sb →
      fieldParser (sa ++ '-' :: sb) = Except.ok (FieldSelector.mk [FieldRange.mk a b])) ∧
    fieldParser (("2-1").data) = Except.ok (FieldSelector.mk [FieldRange.mk 2 1]) ∧
    fieldParser (("3--1").data) = Except.ok (FieldSelector.mk [FieldRange.mk 3 (-1)]) ∧
    fieldParser (("-3--1").data) = Except.error (ParseErr.invalidInteger (("-3--1").data)) :=
  ⟨fieldParser_span, by decide, by decide, by decide⟩

/-- C3 witness: the amended theorem's general span clause applied to the
concrete token "7-4". -/
theorem c3_amended_witness :
    parseIsizeChars (("7").data) = some 7 ∧ parseIsizeChars (("4").data) = some 4 ∧
    fieldParser (("7").data ++ '-' :: ("4").data) =
      Except.ok (FieldSelector.mk [FieldRange.mk 7 4]) :=
  ⟨by decide, by decide,
   c3_amended.1 (("7").data) (("4").data) 7 4 (by decide) (by decide) (by decide) (by decide)
     (by decide)⟩

/-- C4 counterexample: the selector expression "-1,-3,-5" begins with a
dash, so field_parser parses it whole as one signed integer and fails;
no selector can be parsed from that expression. -/
theorem c4_counterexample :
    fieldParser (("-1,-3,-5").data) = Except.error (ParseErr.invalidInteger (("-1,-3,-5").data)) ∧
    fieldParser (("-1,-3,-5").data) ≠ Except.ok (FieldSelector.mk
      [FieldRange.mk (-1) (-1), FieldRange.mk (-3) (-3), FieldRange.mk (-5) (-5)]) :=
  ⟨by decide, by decide⟩

/-- C4 amended: for every negative raw index above isize::MIN the
evaluator resolves it to field_count - (-idx) + 1; on the 7-field line
"a b c d e f g" the parsed selector "-1" emits "g", and the selector
made of the three ranges {-1},{-3},{-5} — which cannot be obtained by
parsing "-1,-3,-5", since the parser rejects that expression — emits
"g e c" with a space separator. -/
theorem c4_amended :
    (∀ (len : Nat) (idx : Int), isizeMin < idx → idx < 0 → (len : Int) ≤ isizeMax →
      resolveIdx len idx = (len : Int) - (-idx) + 1) ∧
    fieldParser (("-1").data) = Except.ok (FieldSelector.mk [FieldRange.mk (-1) (-1)]) ∧
    evalLine (CutJob.mk Delimiter.whitespace (FieldSelector.mk [FieldRange.mk (-1) (-1)])
      ((" ").data)) (("a b c d e f g").data) = (("g").data) ∧
    evalLine (CutJob.mk Delimiter.whitespace (FieldSelector.mk
      [FieldRange.mk (-1) (-1), FieldRange.mk (-3) (-3), FieldRange.mk (-5) (-5)])
      ((" ").data)) (("a b c d e f g").data) = (("g e c").data) := by
  refine ⟨?_, by decide, by decide, by decide⟩
  intro len idx h1 h2 hlen
  rw [resolveIdx_of_neg len idx h1 h2 hlen]
  omega

/-- C4 witness: the amended resolution formula evaluated at a 7-field
line and raw index -2. -/
theorem c4_amended_witness :
    isizeMin < (-2 : Int) ∧ ((7 : Nat) : Int) ≤ isizeMax ∧
    resolveIdx 7 (-2) = ((7 : Nat) : Int) - (-(-2 : Int)) + 1 :=
  ⟨by decide, by decide, c4_amended.1 7 (-2) (by decide) (by decide) (by decide)⟩

/-- C5: a resolved 1-based position outside [1, field_count] makes the
field lookup return none and is silently omitted; the output is the
emitted fields joined by the separator, so the separator appears only
between two consecutively emitted fields; concretely the selector parsed
from "1,5,2" on the 3-field line "aa bb cc" produces "aa bb". -/
theorem c5_theorem :
    (∀ (fields : List (List Char)) (idx : Int),
      (fields.length : Int) ≤ isizeMax → isizeMin ≤ idx → idx ≤ isizeMax →
      ¬(1 ≤ resolveIdx fields.length idx ∧
        resolveIdx fields.length idx ≤ (fields.length : Int)) →
      fieldLookup fields idx = none) ∧
    (∀ (fields : List (List Char)) (sep : List Char) (idxs : List Int),
      emitLoop fields sep idxs false = joinSep sep (idxs.filterMap (fieldLookup fields))) ∧
    fieldParser (("1,5,2").data) = Except.ok (FieldSelector.mk
      [FieldRange.mk 1 1, FieldRange.mk 5 5, FieldRange.mk 2 2]) ∧
    evalLine (CutJob.mk Delimiter.whitespace (FieldSelector.mk
      [FieldRange.mk 1 1, FieldRange.mk 5 5, FieldRange.mk 2 2]) ((" ").data))
      (("aa bb cc").data) = (("aa bb").data) := by
  refine ⟨?_, emitLoop_false_eq, by decide, by decide⟩
  intro fields idx hlen hlo hhi hout
  apply fieldLookup_none_of_out fields idx hlen hlo hhi
  omega

/-- C5 witness: the out-of-range clause of the theorem evaluated at the
3-field line and raw index 5. -/
theorem c5_witness :
    fieldLookup [("aa").data, ("bb").data, ("cc").data] 5 = none :=
  c5_theorem.1 [("aa").data, ("bb").data, ("cc").data] 5 (by decide) (by decide) (by decide)
    (by decide)

/-- C6 counterexample: parsing "1,,2" fails, but with the invalid-integer
error on the empty token (Rust's ParseIntError for an empty string), not
with the empty-range error the claim predicts. -/
theorem c6_counterexample :
    fieldParser (("1,,2").data) = Except.error (ParseErr.invalidInteger []) ∧
    ParseErr.invalidInteger [] ≠ ParseErr.emptyRange :=
  ⟨by decide, by decide⟩

/-- C6 amended: parse("1,,2") fails with the invalid-integer error for
the empty token; the empty-range error branch of field_parser is
unreachable for every input, because splitn(2,'-') always yields at
least one piece. -/
theorem c6_amended :
    fieldParser (("1,,2").data) = Except.error (ParseErr.invalidInteger []) ∧
    (∀ s : List Char, fieldParser s ≠ Except.error ParseErr.emptyRange) :=
  ⟨by decide, fieldParser_ne_emptyRange⟩

/-- C6 witness: the unreachability clause evaluated at a concrete
expression. -/
theorem c6_amended_witness :
    fieldParser (("9").data) ≠ Except.error ParseErr.emptyRange :=
  c6_amended.2 (("9").data)

/-- C7: when the cause chain of a failed run contains an I/O error of the
broken-pipe kind, muffle_epipe turns the failure into Ok (clean
termination); every error whose chain has no broken-pipe I/O cause is
propagated unchanged. -/
theorem c7_theorem (chain : List ErrCause) :
    ((∃ m, ErrCause.io IoKind.brokenPipe m ∈ chain) → muffleEpipe chain = Except.ok ()) ∧
    ((∀ m, ErrCause.io IoKind.brokenPipe m ∉ chain) → muffleEpipe chain = Except.error chain) := by
  constructor
  · intro hex
    unfold muffleEpipe
    rw [if_pos ((hasBrokenPipe_iff chain).mpr hex)]
  · intro hall
    unfold muffleEpipe
    rw [if_neg (fun hb => by
      obtain ⟨m, hm⟩ := (hasBrokenPipe_iff chain).mp hb
      exact hall m hm)]

/-- C7 witness: muffle_epipe evaluated on a chain holding a broken-pipe
cause and on a chain without one. -/
theorem c7_witness :
    muffleEpipe [ErrCause.io IoKind.brokenPipe []] = Except.ok () ∧
    muffleEpipe [ErrCause.generic []] = Except.error [ErrCause.generic []] :=
  ⟨(c7_theorem [ErrCause.io IoKind.brokenPipe []]).1 ⟨[], List.mem_cons_self _ _⟩,
   (c7_theorem [ErrCause.generic []]).2 (fun m hm => by
      rcases List.mem_cons.mp hm with he | h2
      · exact ErrCause.noConfusion he
      · cases h2)⟩

/-- C8: for a line whose whitespace split has N fields (N at least 1 and
within isize range, as any real field vector is), the selector parsed
from "1-N" is the single range {1,N}, and evaluating the line with it
reproduces exactly the whitespace-split fields in original order joined
by the output separator. -/
theorem c8_theorem (line sep : List Char) (N : Nat) (hN : N = (splitWs line).length)
    (h1 : 1 ≤ N) (hmax : (N : Int) ≤ isizeMax) :
    fieldParser ('1' :: '-' :: natNumeral N) =
      Except.ok (FieldSelector.mk [FieldRange.mk 1 (N : Int)]) ∧
    evalLine (CutJob.mk Delimiter.whitespace (FieldSelector.mk [FieldRange.mk 1 (N : Int)]) sep)
      line = joinSep sep (splitWs line) := by
  constructor
  · exact fieldParser_span (("1").data) (natNumeral N) 1 (N : Int) (by decide)
      (parseIsizeChars_natNumeral N hmax) (by decide) (by decide) (natNumeral_no_comma N)
  · rw [hN]
    exact evalLine_full_range line sep (by rw [← hN]; exact hmax)

/-- C8 witness: the idempotence theorem evaluated at the 2-field line
"a b" with a space separator. -/
theorem c8_witness :
    (2 : Nat) = (splitWs (("a b").data)).length ∧
    (fieldParser ('1' :: '-' :: natNumeral 2) =
      Except.ok (FieldSelector.mk [FieldRange.mk 1 (2 : Int)]) ∧
    evalLine (CutJob.mk Delimiter.whitespace (FieldSelector.mk [FieldRange.mk 1 (2 : Int)])
      ((" ").data)) (("a b").data) = joinSep ((" ").data) (splitWs (("a b").data))) :=
  ⟨by decide, c8_theorem (("a b").data) ((" ").data) 2 (by decide) (by decide) (by decide)⟩

/-- C9: per-line evaluation is total: for every fields vector of
realistic length and every isize raw index whose resolved 1-based
position is zero, negative, or beyond the field count, the lookup
returns none and the loop silently skips it; the usize cast of any
nonpositive resolved position is at least 2^63, a slot no field vector
can reach; index 0 in particular is always skipped. -/
theorem c9_theorem :
    (∀ (fields : List (List Char)) (idx : Int),
      (fields.length : Int) ≤ isizeMax → isizeMin ≤ idx → idx ≤ isizeMax →
      (resolveIdx fields.length idx ≤ 0 ∨
        (fields.length : Int) < resolveIdx fields.length idx) →
      fieldLookup fields idx = none) ∧
    (∀ fields : List (List Char), (fields.length : Int) ≤ isizeMax →
      fieldLookup fields 0 = none) ∧
    (∀ r : Int, isizeMin < r → r ≤ 0 → 9223372036854775808 ≤ usizeOf (toIsize (r - 1))) ∧
    (∀ (fields : List (List Char)) (sep : List Char) (idx : Int) (rest : List Int) (b : Bool),
      fieldLookup fields idx = none →
      emitLoop fields sep (idx :: rest) b = emitLoop fields sep rest b) := by
  refine ⟨fieldLookup_none_of_out, ?_, usizeOf_unreachable, ?_⟩
  · intro fields hlen
    apply fieldLookup_none_of_out fields 0 hlen (by decide) (by decide)
    have h0 : resolveIdx fields.length 0 = 0 := resolveIdx_of_nonneg fields.length 0 (by omega)
    omega
  · intro fields sep idx rest b h
    exact emitLoop_skip fields sep idx rest b h

/-- C9 witness: the lookup on a 1-field line at raw index 0 and at raw
index -5 (resolved position -3). -/
theorem c9_witness :
    fieldLookup [("a").data] 0 = none ∧ fieldLookup [("a").data] (-5) = none :=
  ⟨c9_theorem.2.1 [("a").data] (by decide),
   c9_theorem.1 [("a").data] (-5) (by decide) (by decide) (by decide) (by decide)⟩

/-- C10: whichever way an expression reaches the parser (explicit fields
flag or comma-joined positional arguments), if it begins with a dash the
whole expression is parsed as one signed integer: any successful parse
yields exactly one single-value range {N,N}, and in particular "-1,2" is
rejected. -/
theorem c10_theorem :
    (∀ (fieldsFlag : Option (List Char)) (args : List (List Char)) (sel : FieldSelector),
      startsWithDash (selectorExpr fieldsFlag args) = true →
      fieldParser (selectorExpr fieldsFlag args) = Except.ok sel →
      ∃ n : Int, sel.fields = [FieldRange.mk n n]) ∧
    fieldParser (("-1,2").data) = Except.error (ParseErr.invalidInteger (("-1,2").data)) := by
  refine ⟨?_, by decide⟩
  intro flag args sel hsw hok
  unfold fieldParser at hok
  rw [if_pos hsw] at hok
  cases hp : parseIsizeChars (selectorExpr flag args) with
  | none =>
    rw [hp] at hok
    simp at hok
  | some n =>
    rw [hp] at hok
    refine ⟨n, ?_⟩
    injection hok with h2
    rw [← h2]

/-- C10 witness: the single-range clause evaluated at the flag expression
"-7", whose parse is the lone range {-7,-7}. -/
theorem c10_witness :
    startsWithDash (selectorExpr (some (("-7").data)) []) = true ∧
    (∃ n : Int, (FieldSelector.mk [FieldRange.mk (-7) (-7)]).fields = [FieldRange.mk n n]) :=
  ⟨by decide,
   c10_theorem.1 (some (("-7").data)) [] (FieldSelector.mk [FieldRange.mk (-7) (-7)])
     (by decide) (by decide)⟩
